import Mathlib

/-!
Shallow embedding of the network-statistics core declared in
`service-t/native/libs/libnetworkstats/include/netdbpf/BpfNetworkStats.h`,
together with proofs of the testable properties stated for it.

The header defines `maybeLogUnknownIface` inline; the remaining operations are
only declared there, so their bodies are modelled from the specification text
(each such definition carries a doc comment saying so).
-/

namespace BpfNetworkStats

/-- Constant from the header: soft limit for the tag stats map. -/
def TAG_STATS_MAP_SOFT_LIMIT : Int := 3

/-- Constant from the header: `UID_ALL = -1` disables the owner filter. -/
def UID_ALL : Int := -1

/-- Constant from the header. -/
def TAG_NONE : Int := 0

/-- Constant from the header. -/
def SET_ALL : Int := -1

/-- Constant from the header. -/
def SET_DEFAULT : Int := 0

/-- Constant from the header. -/
def SET_FOREGROUND : Int := 1

/-- Constant from the header: the limit for stats received by an unknown
interface, `100 * 1000` bytes. -/
def MAX_UNKNOWN_IFACE_BYTES : Int := 100 * 1000

/-- Counter row value: the four 64-bit signed counters.  Modelled with `Int`;
the quantities handled by the claims stay far below the 64-bit range. -/
structure StatsValue where
  rxBytes : Int
  rxPackets : Int
  txBytes : Int
  txPackets : Int
deriving DecidableEq, Repr

/-- Embedding of the header's inline `maybeLogUnknownIface`.  The BPF map is
abstracted as the point-read function `statsMap : Key → Option StatsValue`
(mirroring `readValue`, where `none` is a failed read).  The C++ function
mutates `*unknownIfaceBytesTotal` and logs; here it returns the new accumulator
value together with `some (ifaceIndex, cumulativeTotal)` when the `ALOGE` alert
fires and `none` otherwise. -/
def maybeLogUnknownIface {Key : Type} (ifaceIndex : Int)
    (statsMap : Key → Option StatsValue) (curKey : Key)
    (unknownIfaceBytesTotal : Int) : Int × Option (Int × Int) :=
  if unknownIfaceBytesTotal = -1 then
    (unknownIfaceBytesTotal, none)
  else
    match statsMap curKey with
    | none => (unknownIfaceBytesTotal, none)
    | some statsEntry =>
      let newTotal := unknownIfaceBytesTotal + (statsEntry.rxBytes + statsEntry.txBytes)
      if MAX_UNKNOWN_IFACE_BYTES ≤ newTotal then
        (-1, some (ifaceIndex, newTotal))
      else
        (newTotal, none)

/-- Run the tracker over a sequence of calls (each call gives the `ifaceIndex`
and the map key of an unresolved row), threading the accumulator and counting
how many alerts fire. -/
def runTracker {Key : Type} (statsMap : Key → Option StatsValue) :
    List (Int × Key) → Int → Int × Nat
  | [], total => (total, 0)
  | c :: rest, total =>
    let s := maybeLogUnknownIface c.1 statsMap c.2 total
    let r := runTracker statsMap rest s.1
    (r.1, (if s.2.isSome then 1 else 0) + r.2)

theorem maybeLogUnknownIface_sentinel {Key : Type} (i : Int)
    (m : Key → Option StatsValue) (k : Key) :
    maybeLogUnknownIface i m k (-1) = (-1, none) := by
  simp [maybeLogUnknownIface]

theorem maybeLogUnknownIface_alert_sets_sentinel {Key : Type} (i : Int)
    (m : Key → Option StatsValue) (k : Key) (t : Int) :
    (maybeLogUnknownIface i m k t).2.isSome = true →
      (maybeLogUnknownIface i m k t).1 = -1 := by
  unfold maybeLogUnknownIface
  split
  · simp
  · cases hmk : m k with
    | none => simp
    | some v =>
      dsimp only
      split
      · simp
      · simp

theorem maybeLogUnknownIface_read_none {Key : Type} (i : Int)
    (m : Key → Option StatsValue) (k : Key) (t : Int) (hread : m k = none) :
    maybeLogUnknownIface i m k t = (t, none) := by
  by_cases h : t = -1
  · subst h; exact maybeLogUnknownIface_sentinel i m k
  · simp [maybeLogUnknownIface, h, hread]

theorem runTracker_sentinel {Key : Type} (m : Key → Option StatsValue)
    (calls : List (Int × Key)) : runTracker m calls (-1) = (-1, 0) := by
  induction calls with
  | nil => rfl
  | cons c rest ih =>
    simp only [runTracker, maybeLogUnknownIface_sentinel, ih, Option.isSome_none]
    rfl

theorem runTracker_count_le_one {Key : Type} (m : Key → Option StatsValue)
    (calls : List (Int × Key)) : ∀ t : Int, (runTracker m calls t).2 ≤ 1 := by
  induction calls with
  | nil => intro t; exact Nat.zero_le 1
  | cons c rest ih =>
    intro t
    simp only [runTracker]
    by_cases h : (maybeLogUnknownIface c.1 m c.2 t).2.isSome = true
    · have hst : (maybeLogUnknownIface c.1 m c.2 t).1 = -1 :=
        maybeLogUnknownIface_alert_sets_sentinel c.1 m c.2 t h
      simp only [h, if_true, hst, runTracker_sentinel]
      exact Nat.le_refl 1
    · simp only [h, if_false]
      simpa using ih (maybeLogUnknownIface c.1 m c.2 t).1

/-- C1: within one tracking context (accumulator starting at 0) at most one
alert is ever emitted over any call sequence; and from the sentinel state every
call is a no-op: no alert, accumulator unchanged. -/
theorem c1_tracker_alerts_at_most_once {Key : Type}
    (statsMap : Key → Option StatsValue) (calls : List (Int × Key)) :
    (runTracker statsMap calls 0).2 ≤ 1 ∧
      ∀ (i : Int) (k : Key), maybeLogUnknownIface i statsMap k (-1) = (-1, none) := by
  refine ⟨runTracker_count_le_one statsMap calls 0, ?_⟩
  intro i k
  exact maybeLogUnknownIface_sentinel i statsMap k

/-- C5: the threshold is exactly 100 * 1000 bytes, and in the accumulating
state with a readable row, the alert fires exactly at the call whose addition
of the row's rx+tx bytes makes the total reach or exceed the threshold (the
alert names the interface index and the cumulative total, and the accumulator
moves to the sentinel); a call leaving the total below the threshold emits no
alert and just accumulates. -/
theorem c5_alert_threshold_exact {Key : Type} (i : Int)
    (statsMap : Key → Option StatsValue) (k : Key) (total : Int) (v : StatsValue)
    (hacc : total ≠ -1) (hread : statsMap k = some v) :
    MAX_UNKNOWN_IFACE_BYTES = 100 * 1000 ∧
      (MAX_UNKNOWN_IFACE_BYTES ≤ total + (v.rxBytes + v.txBytes) →
        maybeLogUnknownIface i statsMap k total =
          (-1, some (i, total + (v.rxBytes + v.txBytes)))) ∧
      (total + (v.rxBytes + v.txBytes) < MAX_UNKNOWN_IFACE_BYTES →
        maybeLogUnknownIface i statsMap k total =
          (total + (v.rxBytes + v.txBytes), none)) := by
  refine ⟨rfl, ?_, ?_⟩
  · intro hth
    simp [maybeLogUnknownIface, hacc, hread, hth]
  · intro hlt
    simp [maybeLogUnknownIface, hacc, hread, not_le.mpr hlt]

/-- Closed-form witness for `c5_alert_threshold_exact` at a concrete input:
accumulator 40000, row with 35000 + 30000 bytes crosses the 100000 threshold. -/
theorem c5_witness :
    maybeLogUnknownIface (7 : Int)
        (fun _ : Nat => some ⟨35000, 1, 30000, 2⟩) 0 40000 =
      (-1, some (7, 105000)) := by
  have h := c5_alert_threshold_exact 7
    (fun _ : Nat => some ⟨35000, 1, 30000, 2⟩) 0 40000 ⟨35000, 1, 30000, 2⟩
    (by decide) rfl
  have h2 := h.2.1 (by decide)
  simpa using h2

/-- C9: if the re-read of the row from the store fails (the row vanished
between enumeration and re-read), the accumulator is unchanged and no alert is
emitted. -/
theorem c9_vanished_row_noop {Key : Type} (i : Int)
    (statsMap : Key → Option StatsValue) (k : Key) (total : Int)
    (hread : statsMap k = none) :
    maybeLogUnknownIface i statsMap k total = (total, none) :=
  maybeLogUnknownIface_read_none i statsMap k total hread

/-- Closed-form witness for `c9_vanished_row_noop` at a concrete input. -/
theorem c9_witness :
    maybeLogUnknownIface (3 : Int) (fun _ : Nat => (none : Option StatsValue)) 0 500 =
      (500, none) :=
  c9_vanished_row_noop 3 (fun _ : Nat => none) 0 500 rfl

/-- C10: preserved two-state invariant.  If the row's rx+tx bytes (whenever the
read succeeds) are non-negative and the accumulator enters as either the
sentinel -1 or a value in [0, MAX_UNKNOWN_IFACE_BYTES), then it leaves as
either -1 or a value in [0, MAX_UNKNOWN_IFACE_BYTES): it is never left at or
above the threshold. -/
theorem c10_two_state_invariant {Key : Type} (i : Int)
    (statsMap : Key → Option StatsValue) (k : Key) (total : Int)
    (hval : ∀ v : StatsValue, statsMap k = some v → 0 ≤ v.rxBytes + v.txBytes)
    (hin : total = -1 ∨ (0 ≤ total ∧ total < MAX_UNKNOWN_IFACE_BYTES)) :
    (maybeLogUnknownIface i statsMap k total).1 = -1 ∨
      (0 ≤ (maybeLogUnknownIface i statsMap k total).1 ∧
        (maybeLogUnknownIface i statsMap k total).1 < MAX_UNKNOWN_IFACE_BYTES) := by
  rcases hin with hs | ⟨h0, hlt⟩
  · subst hs
    rw [maybeLogUnknownIface_sentinel]
    exact Or.inl rfl
  · have hne : total ≠ -1 := by omega
    cases hread : statsMap k with
    | none =>
      rw [maybeLogUnknownIface_read_none i statsMap k total hread]
      exact Or.inr ⟨h0, hlt⟩
    | some v =>
      have hv : 0 ≤ v.rxBytes + v.txBytes := hval v hread
      by_cases hth : MAX_UNKNOWN_IFACE_BYTES ≤ total + (v.rxBytes + v.txBytes)
      · simp [maybeLogUnknownIface, hne, hread, hth]
      · right
        simp only [maybeLogUnknownIface, hne, if_false, hread, hth]
        constructor
        · omega
        · omega

/-- Report record from the header (`struct stats_line`): bounded interface
name, owner/set/tag identity fields and four signed 64-bit counters. -/
structure stats_line where
  iface : String
  uid : Nat
  set : Nat
  tag : Nat
  rxBytes : Int
  rxPackets : Int
  txBytes : Int
  txPackets : Int
deriving DecidableEq, Repr

/-- The identity tuple of a record: `(interfaceName, ownerId, trafficSet,
trafficTag)`.  Per the spec, equality and ordering on `stats_line` are defined
over this tuple only; the counters are payload. -/
def identityTuple (s : stats_line) : String × Nat × Nat × Nat :=
  (s.iface, s.uid, s.set, s.tag)

/-- Lexicographic sort key on the identity tuple. -/
def statsLineKey (s : stats_line) : Lex (String × Lex (Nat × Lex (Nat × Nat))) :=
  toLex (s.iface, toLex (s.uid, toLex (s.set, s.tag)))

/-- Modelled from the spec: `operator==(stats_line, stats_line)` is declared in
the header but its body is not among the sources; per the spec it compares the
identity tuple only. -/
def statsLineEq (a b : stats_line) : Prop :=
  identityTuple a = identityTuple b

/-- Modelled from the spec: `operator<(stats_line, stats_line)` is declared in
the header but its body is not among the sources; per the spec the ordering is
the total lexicographic order on the identity tuple. -/
def statsLineLt (a b : stats_line) : Prop :=
  statsLineKey a < statsLineKey b

/-- The reflexive closure of `statsLineLt`, used as the sorting relation. -/
def statsLineLe (a b : stats_line) : Prop :=
  statsLineKey a ≤ statsLineKey b

instance : DecidableRel statsLineLe :=
  fun a b => inferInstanceAs (Decidable (statsLineKey a ≤ statsLineKey b))

instance : DecidableRel statsLineLt :=
  fun a b => inferInstanceAs (Decidable (statsLineKey a < statsLineKey b))

instance : IsTotal stats_line statsLineLe :=
  ⟨fun a b => le_total (statsLineKey a) (statsLineKey b)⟩

instance : IsTrans stats_line statsLineLe :=
  ⟨fun _ _ _ h1 h2 => le_trans h1 h2⟩

instance : IsTrans stats_line statsLineLt :=
  ⟨fun _ _ _ h1 h2 => lt_trans h1 h2⟩

/-- Modelled from the spec: `stats_line::operator+=` is declared in the header
but its body is not among the sources; per the spec, records with equal
identity tuples are merged by summing the four counter fields. -/
def addStatsLine (lhs rhs : stats_line) : stats_line :=
  { lhs with
    rxBytes := lhs.rxBytes + rhs.rxBytes
    rxPackets := lhs.rxPackets + rhs.rxPackets
    txBytes := lhs.txBytes + rhs.txBytes
    txPackets := lhs.txPackets + rhs.txPackets }

/-- Fold a run of records over the sorted list: adjacent records with equal
identity tuples are merged with `addStatsLine`. -/
def mergeAdjacent : stats_line → List stats_line → List stats_line
  | acc, [] => [acc]
  | acc, b :: rest =>
    if identityTuple acc = identityTuple b then mergeAdjacent (addStatsLine acc b) rest
    else acc :: mergeAdjacent b rest

/-- Modelled from the spec: `groupNetworkStats` is declared in the header but
its body is not among the sources; per the spec it stable-sorts the records by
identity tuple and then folds adjacent equal-identity records by summing the
four counter fields. -/
def groupNetworkStats (lines : List stats_line) : List stats_line :=
  match List.insertionSort statsLineLe lines with
  | [] => []
  | a :: rest => mergeAdjacent a rest

/-- Total of one counter field over a record sequence. -/
def sumField (f : stats_line → Int) (l : List stats_line) : Int :=
  (l.map f).sum

theorem statsLineKey_eq_iff (a b : stats_line) :
    statsLineKey a = statsLineKey b ↔ identityTuple a = identityTuple b := by
  simp [statsLineKey, identityTuple, Prod.ext_iff]

theorem identityTuple_addStatsLine (a b : stats_line) :
    identityTuple (addStatsLine a b) = identityTuple a := rfl

theorem mergeAdjacent_head : ∀ (l : List stats_line) (a : stats_line),
    ∃ h t, mergeAdjacent a l = h :: t ∧ identityTuple h = identityTuple a := by
  intro l
  induction l with
  | nil => intro a; exact ⟨a, [], rfl, rfl⟩
  | cons b rest ih =>
    intro a
    by_cases hid : identityTuple a = identityTuple b
    · obtain ⟨h, t, he, hk⟩ := ih (addStatsLine a b)
      refine ⟨h, t, ?_, ?_⟩
      · simp [mergeAdjacent, hid, he]
      · rw [hk]; rfl
    · exact ⟨a, mergeAdjacent b rest, by simp [mergeAdjacent, hid], rfl⟩

theorem mergeAdjacent_chain_lt : ∀ (l : List stats_line) (a : stats_line),
    List.Pairwise statsLineLe (a :: l) →
    List.Chain' statsLineLt (mergeAdjacent a l) := by
  intro l
  induction l with
  | nil => intro a _; exact List.chain'_singleton a
  | cons b rest ih =>
    intro a hp
    rw [List.pairwise_cons] at hp
    obtain ⟨ha, hp2⟩ := hp
    by_cases hid : identityTuple a = identityTuple b
    · have hstep : mergeAdjacent a (b :: rest) = mergeAdjacent (addStatsLine a b) rest := by
        simp [mergeAdjacent, hid]
      rw [hstep]
      apply ih (addStatsLine a b)
      rw [List.pairwise_cons]
      refine ⟨?_, hp2.of_cons⟩
      intro x hx
      have hax : statsLineLe a x := ha x (List.mem_cons_of_mem b hx)
      exact hax
    · have hstep : mergeAdjacent a (b :: rest) = a :: mergeAdjacent b rest := by
        simp [mergeAdjacent, hid]
      rw [hstep]
      obtain ⟨h, t, he, hk⟩ := mergeAdjacent_head rest b
      rw [he, List.chain'_cons]
      constructor
      · have hle : statsLineLe a b := ha b (List.mem_cons_self b rest)
        have hne : statsLineKey a ≠ statsLineKey b := by
          intro hkey
          exact hid ((statsLineKey_eq_iff a b).mp hkey)
        have hkb : statsLineKey h = statsLineKey b := (statsLineKey_eq_iff h b).mpr hk
        show statsLineKey a < statsLineKey h
        rw [hkb]
        exact lt_of_le_of_ne hle hne
      · rw [← he]
        exact ih b hp2

theorem mergeAdjacent_noop : ∀ (l : List stats_line) (a : stats_line),
    List.Chain' (fun x y => identityTuple x ≠ identityTuple y) (a :: l) →
    mergeAdjacent a l = a :: l := by
  intro l
  induction l with
  | nil => intro a _; rfl
  | cons b rest ih =>
    intro a hc
    rw [List.chain'_cons] at hc
    simp [mergeAdjacent, hc.1, ih b hc.2]

theorem mergeAdjacent_sum (f : stats_line → Int)
    (hf : ∀ a b, f (addStatsLine a b) = f a + f b) :
    ∀ (l : List stats_line) (a : stats_line),
      ((mergeAdjacent a l).map f).sum = f a + (l.map f).sum := by
  intro l
  induction l with
  | nil => intro a; simp [mergeAdjacent]
  | cons b rest ih =>
    intro a
    by_cases hid : identityTuple a = identityTuple b
    · simp [mergeAdjacent, hid, ih, hf, add_assoc]
    · simp [mergeAdjacent, hid, ih]

theorem groupNetworkStats_chain_lt (lines : List stats_line) :
    List.Chain' statsLineLt (groupNetworkStats lines) := by
  unfold groupNetworkStats
  cases h : List.insertionSort statsLineLe lines with
  | nil => exact List.chain'_nil
  | cons a rest =>
    apply mergeAdjacent_chain_lt
    have hs := List.sorted_insertionSort statsLineLe lines
    rw [h] at hs
    exact hs

theorem groupNetworkStats_pairwise_lt (lines : List stats_line) :
    List.Pairwise statsLineLt (groupNetworkStats lines) :=
  List.chain'_iff_pairwise.mp (groupNetworkStats_chain_lt lines)

theorem statsLineLt_identity_ne {a b : stats_line} (h : statsLineLt a b) :
    identityTuple a ≠ identityTuple b := by
  intro hid
  exact absurd ((statsLineKey_eq_iff a b).mpr hid) (ne_of_lt h)

theorem groupNetworkStats_of_chain_lt (l : List stats_line)
    (h : List.Chain' statsLineLt l) : groupNetworkStats l = l := by
  have hsorted : List.Sorted statsLineLe l :=
    (List.chain'_iff_pairwise.mp h).imp (fun hlt => le_of_lt hlt)
  unfold groupNetworkStats
  rw [List.Sorted.insertionSort_eq hsorted]
  cases l with
  | nil => rfl
  | cons a rest =>
    apply mergeAdjacent_noop
    exact List.Pairwise.chain'
      ((List.chain'_iff_pairwise.mp h).imp (fun hlt => statsLineLt_identity_ne hlt))

theorem groupNetworkStats_sumField (f : stats_line → Int)
    (hf : ∀ a b, f (addStatsLine a b) = f a + f b) (lines : List stats_line) :
    sumField f (groupNetworkStats lines) = sumField f lines := by
  unfold groupNetworkStats sumField
  cases h : List.insertionSort statsLineLe lines with
  | nil =>
    have hperm := List.perm_insertionSort statsLineLe lines
    rw [h] at hperm
    rw [hperm.symm.eq_nil]
  | cons a rest =>
    rw [mergeAdjacent_sum f hf]
    have hperm := List.perm_insertionSort statsLineLe lines
    rw [h] at hperm
    have := (hperm.map f).sum_eq
    simpa using this

/-- C2: grouping is idempotent: `group (group x) = group x` for every input
sequence `x` (proved as equality of the record lists themselves, which is
stronger than the claim's order-independent set equality). -/
theorem c2_group_idempotent (x : List stats_line) :
    groupNetworkStats (groupNetworkStats x) = groupNetworkStats x :=
  groupNetworkStats_of_chain_lt (groupNetworkStats x) (groupNetworkStats_chain_lt x)

/-- C3: grouping preserves total mass for each of the four counter fields, and
the grouped output has at most one record per distinct identity tuple. -/
theorem c3_group_mass_and_identity_unique (x : List stats_line) :
    sumField stats_line.rxBytes (groupNetworkStats x) = sumField stats_line.rxBytes x ∧
    sumField stats_line.rxPackets (groupNetworkStats x) = sumField stats_line.rxPackets x ∧
    sumField stats_line.txBytes (groupNetworkStats x) = sumField stats_line.txBytes x ∧
    sumField stats_line.txPackets (groupNetworkStats x) = sumField stats_line.txPackets x ∧
    List.Pairwise (fun a b => identityTuple a ≠ identityTuple b) (groupNetworkStats x) := by
  refine ⟨?_, ?_, ?_, ?_, ?_⟩
  · exact groupNetworkStats_sumField stats_line.rxBytes (fun a b => rfl) x
  · exact groupNetworkStats_sumField stats_line.rxPackets (fun a b => rfl) x
  · exact groupNetworkStats_sumField stats_line.txBytes (fun a b => rfl) x
  · exact groupNetworkStats_sumField stats_line.txPackets (fun a b => rfl) x
  · exact (groupNetworkStats_pairwise_lt x).imp (fun hlt => statsLineLt_identity_ne hlt)

/-- Key of the per-(uid, tag, counterSet, interface) detail table (`StatsKey`
from netd.h, which is not among the sources; its fields are those the spec
names for the detail key plus the counter-set copied into report records). -/
structure StatsKey where
  uid : Nat
  tag : Nat
  counterSet : Nat
  ifaceIndex : Nat
deriving DecidableEq, Repr

/-- Value of the cookie-to-tag mapping table (`UidTagValue` from netd.h, not
among the sources): the (ownerId, trafficTag) a socket cookie was assigned. -/
structure UidTagValue where
  uid : Nat
  tag : Nat
deriving DecidableEq, Repr

/-- A mapping entry has a live counter row when some row of the tag counter
table carries the same (ownerId, trafficTag). -/
def hasLiveRow (tagStatsMap : List (StatsKey × StatsValue))
    (e : Nat × UidTagValue) : Bool :=
  tagStatsMap.any (fun kv => kv.1.uid == e.2.uid && kv.1.tag == e.2.tag)

/-- Modelled from the spec: `cleanStatsMapInternal` is declared in the header
but its body is not among the sources.  Per the spec (TagMapReconciler), it
walks the cookie-to-tag mapping table and deletes every entry for which no
live row with the same (ownerId, trafficTag) exists in the tag counter table.
It returns the surviving mapping table and the number of deleted entries. -/
def cleanStatsMapInternal (cookieTagMap : List (Nat × UidTagValue))
    (tagStatsMap : List (StatsKey × StatsValue)) :
    List (Nat × UidTagValue) × Nat :=
  let kept := cookieTagMap.filter (hasLiveRow tagStatsMap)
  (kept, cookieTagMap.length - kept.length)

/-- C4: the reconciler never deletes a mapping entry that still has a live
corresponding counter row, and for a fixed snapshot of both tables an
immediately repeated pass keeps the table unchanged and deletes zero
additional entries. -/
theorem c4_reconcile_safe_and_idempotent
    (cookieTagMap : List (Nat × UidTagValue))
    (tagStatsMap : List (StatsKey × StatsValue)) :
    (∀ e ∈ cookieTagMap, hasLiveRow tagStatsMap e = true →
        e ∈ (cleanStatsMapInternal cookieTagMap tagStatsMap).1) ∧
      cleanStatsMapInternal (cleanStatsMapInternal cookieTagMap tagStatsMap).1 tagStatsMap =
        ((cleanStatsMapInternal cookieTagMap tagStatsMap).1, 0) := by
  constructor
  · intro e he hlive
    exact List.mem_filter.mpr ⟨he, hlive⟩
  · have hkept :
        (cookieTagMap.filter (hasLiveRow tagStatsMap)).filter (hasLiveRow tagStatsMap) =
          cookieTagMap.filter (hasLiveRow tagStatsMap) :=
      List.filter_eq_self.mpr (fun a ha => (List.mem_filter.mp ha).2)
    unfold cleanStatsMapInternal
    simp only [hkept, Nat.sub_self]

/-- Closed-form witness for `c4_reconcile_safe_and_idempotent`: a mapping entry
whose (uid, tag) still has a counter row survives the pass, and the immediate
second pass deletes nothing. -/
theorem c4_witness :
    ((1, (⟨10, 5⟩ : UidTagValue)) ∈
        (cleanStatsMapInternal [(1, ⟨10, 5⟩), (2, ⟨11, 6⟩)]
          [(⟨10, 5, 0, 3⟩, ⟨100, 1, 200, 2⟩)]).1) ∧
      cleanStatsMapInternal
          (cleanStatsMapInternal [(1, ⟨10, 5⟩), (2, ⟨11, 6⟩)]
            [(⟨10, 5, 0, 3⟩, ⟨100, 1, 200, 2⟩)]).1
          [(⟨10, 5, 0, 3⟩, ⟨100, 1, 200, 2⟩)] =
        ((cleanStatsMapInternal [(1, ⟨10, 5⟩), (2, ⟨11, 6⟩)]
            [(⟨10, 5, 0, 3⟩, ⟨100, 1, 200, 2⟩)]).1, 0) := by
  have h := c4_reconcile_safe_and_idempotent
    [(1, ⟨10, 5⟩), (2, ⟨11, 6⟩)] [(⟨10, 5, 0, 3⟩, ⟨100, 1, 200, 2⟩)]
  exact ⟨h.1 (1, ⟨10, 5⟩) (by decide) (by decide), h.2⟩

/-- Build the report record for a resolved detail row: name from the resolver,
identity from the key, counters from the value. -/
def statsKeyToStatsLine (n : String) (k : StatsKey) (v : StatsValue) : stats_line :=
  { iface := n
    uid := k.uid
    set := k.counterSet
    tag := k.tag
    rxBytes := v.rxBytes
    rxPackets := v.rxPackets
    txBytes := v.txBytes
    txPackets := v.txPackets }

/-- Loop of the detail parser: one enumeration step per row, threading the
unknown-interface accumulator. -/
def parseDetailGo (readValue : StatsKey → Option StatsValue)
    (ifindex2name : Nat → Option String) :
    List (StatsKey × StatsValue) → Int → List stats_line × Int
  | [], total => ([], total)
  | kv :: rest, total =>
    match ifindex2name kv.1.ifaceIndex with
    | some n =>
      let r := parseDetailGo readValue ifindex2name rest total
      (statsKeyToStatsLine n kv.1 kv.2 :: r.1, r.2)
    | none =>
      parseDetailGo readValue ifindex2name rest
        (maybeLogUnknownIface (kv.1.ifaceIndex : Int) readValue kv.1 total).1

/-- Modelled from the spec: `parseBpfNetworkStatsDetailInternal` is declared in
the header but its body is not among the sources.  Per the spec it iterates
every detail-table row (`statsMap` is the enumeration snapshot, `readValue` the
point-read used by `maybeLogUnknownIface`), resolves the interface index; on
success it emits a report record, on failure it feeds the unknown-interface
tracker and drops the row.  The accumulator starts at 0 for the call. -/
def parseBpfNetworkStatsDetailInternal (statsMap : List (StatsKey × StatsValue))
    (readValue : StatsKey → Option StatsValue)
    (ifindex2name : Nat → Option String) : List stats_line × Int :=
  parseDetailGo readValue ifindex2name statsMap 0

theorem parseDetailGo_spec (readValue : StatsKey → Option StatsValue)
    (ifindex2name : Nat → Option String) :
    ∀ (l : List (StatsKey × StatsValue)) (total : Int),
      parseDetailGo readValue ifindex2name l total =
        (l.filterMap (fun kv => (ifindex2name kv.1.ifaceIndex).map
            (fun n => statsKeyToStatsLine n kv.1 kv.2)),
          l.foldl (fun t kv =>
            match ifindex2name kv.1.ifaceIndex with
            | some _ => t
            | none => (maybeLogUnknownIface (kv.1.ifaceIndex : Int) readValue kv.1 t).1)
            total) := by
  intro l
  induction l with
  | nil => intro total; rfl
  | cons kv rest ih =>
    intro total
    cases h : ifindex2name kv.1.ifaceIndex with
    | some n =>
      simp only [parseDetailGo, h, ih, List.filterMap_cons, List.foldl_cons]
      rfl
    | none =>
      simp only [parseDetailGo, h, ih, List.filterMap_cons, List.foldl_cons]
      rfl

/-- C6: the detail parser emits exactly one report record per row whose
interface index resolves to a name (identity from the key, counters from the
value), rows whose interface fails to resolve never appear in the returned
sequence, and exactly those unresolved rows are fed, in order, to the
unknown-interface tracker. -/
theorem c6_parse_detail_resolved_only (statsMap : List (StatsKey × StatsValue))
    (readValue : StatsKey → Option StatsValue)
    (ifindex2name : Nat → Option String) :
    (parseBpfNetworkStatsDetailInternal statsMap readValue ifindex2name).1 =
        statsMap.filterMap (fun kv => (ifindex2name kv.1.ifaceIndex).map
          (fun n => statsKeyToStatsLine n kv.1 kv.2)) ∧
      (parseBpfNetworkStatsDetailInternal statsMap readValue ifindex2name).2 =
        statsMap.foldl (fun t kv =>
          match ifindex2name kv.1.ifaceIndex with
          | some _ => t
          | none => (maybeLogUnknownIface (kv.1.ifaceIndex : Int) readValue kv.1 t).1) 0 := by
  unfold parseBpfNetworkStatsDetailInternal
  rw [parseDetailGo_spec]
  exact ⟨rfl, rfl⟩

/-- The all-zero counter value. -/
def zeroStats : StatsValue := ⟨0, 0, 0, 0⟩

/-- Field-wise sum of two counter values. -/
def addStats (a b : StatsValue) : StatsValue :=
  ⟨a.rxBytes + b.rxBytes, a.rxPackets + b.rxPackets,
    a.txBytes + b.txBytes, a.txPackets + b.txPackets⟩

instance : Zero StatsValue := ⟨zeroStats⟩

instance : Add StatsValue := ⟨addStats⟩

instance : AddCommMonoid StatsValue where
  add_assoc a b c := by
    cases a; cases b; cases c
    show addStats (addStats _ _) _ = addStats _ (addStats _ _)
    simp [addStats, add_assoc]
  zero_add a := by
    cases a
    show addStats zeroStats _ = _
    simp [addStats, zeroStats]
  add_zero a := by
    cases a
    show addStats _ zeroStats = _
    simp [addStats, zeroStats]
  add_comm a b := by
    cases a; cases b
    show addStats _ _ = addStats _ _
    simp [addStats, add_comm]
  nsmul := nsmulRec

/-- Owner filter of the owner total: `UID_ALL` disables the filter, otherwise
the row's owner must equal the requested owner. -/
def ownerMatches (uid : Int) (k : StatsKey) : Bool :=
  uid == UID_ALL || (k.uid : Int) == uid

/-- Modelled from the spec: `bpfGetUidStatsInternal` (totalForOwner) is
declared in the header but its body is not among the sources.  Per the spec it
sums the counters of every detail-table row whose ownerId matches (`UID_ALL`
disables the filter); the whole table being unreadable (`none`) is the only
error, zero traffic yields the zero-valued counter. -/
def bpfGetUidStatsInternal (uid : Int)
    (detailTable : Option (List (StatsKey × StatsValue))) : Except Unit StatsValue :=
  match detailTable with
  | none => Except.error ()
  | some rows =>
    Except.ok (((rows.filter (fun kv => ownerMatches uid kv.1)).map (fun kv => kv.2)).sum)

/-- Modelled from the spec: `bpfGetIfIndexStatsInternal` (totalForInterfaceIndex)
is declared in the header but its body is not among the sources.  Per the spec
it is a direct device-table lookup by index, returning the zero-valued counter
when the index has no entry; only store unavailability is an error. -/
def bpfGetIfIndexStatsInternal (ifindex : Nat)
    (ifaceStatsMap : Option (List (Nat × StatsValue))) : Except Unit StatsValue :=
  match ifaceStatsMap with
  | none => Except.error ()
  | some rows =>
    match rows.lookup ifindex with
    | some v => Except.ok v
    | none => Except.ok zeroStats

/-- Value of an aggregate query, zero if it errored. -/
def statsOrZero : Except Unit StatsValue → StatsValue
  | Except.ok v => v
  | Except.error _ => zeroStats

theorem sum_map_filter_add {α M : Type} [AddCommMonoid M] (p : α → Bool) (f : α → M) :
    ∀ l : List α,
      ((l.filter p).map f).sum + ((l.filter (fun a => !p a)).map f).sum = (l.map f).sum := by
  intro l
  induction l with
  | nil => simp
  | cons x rest ih =>
    cases hp : p x with
    | true =>
      have h1 : (x :: rest).filter p = x :: rest.filter p := by
        simp [List.filter_cons, hp]
      have h2 : (x :: rest).filter (fun a => !p a) = rest.filter (fun a => !p a) := by
        simp [List.filter_cons, hp]
      rw [h1, h2, List.map_cons, List.sum_cons, List.map_cons, List.sum_cons, add_assoc, ih]
    | false =>
      have h1 : (x :: rest).filter p = rest.filter p := by
        simp [List.filter_cons, hp]
      have h2 : (x :: rest).filter (fun a => !p a) = x :: rest.filter (fun a => !p a) := by
        simp [List.filter_cons, hp]
      rw [h1, h2, List.map_cons, List.sum_cons, List.map_cons, List.sum_cons,
        add_left_comm, ih]

theorem sum_map_partition {α κ M : Type} [DecidableEq κ] [BEq κ] [LawfulBEq κ]
    [AddCommMonoid M] (key : α → κ) (f : α → M) :
    ∀ os : List κ, os.Nodup → ∀ l : List α, (∀ a ∈ l, key a ∈ os) →
      (os.map (fun u => ((l.filter (fun a => key a == u)).map f).sum)).sum =
        (l.map f).sum := by
  intro os
  induction os with
  | nil =>
    intro _ l hl
    have hnil : l = [] :=
      List.eq_nil_iff_forall_not_mem.mpr (fun a ha => (List.not_mem_nil (key a)) (hl a ha))
    subst hnil
    simp
  | cons o os ih =>
    intro hnodup l hl
    rw [List.nodup_cons] at hnodup
    obtain ⟨ho, hnd⟩ := hnodup
    rw [List.map_cons, List.sum_cons]
    have hstep : ∀ u ∈ os,
        ((l.filter (fun a => key a == u)).map f).sum =
          (((l.filter (fun a => !(key a == o))).filter (fun a => key a == u)).map f).sum := by
      intro u hu
      have hfil : l.filter (fun a => key a == u) =
          (l.filter (fun a => !(key a == o))).filter (fun a => key a == u) := by
        rw [List.filter_filter]
        apply List.filter_congr
        intro a _
        cases hk : (key a == u) with
        | false => simp
        | true =>
          have hau : key a = u := by simpa using hk
          have hne : (key a == o) = false := by
            rw [beq_eq_false_iff_ne, hau]
            intro hc
            exact ho (hc ▸ hu)
          simp [hne]
      rw [← hfil]
    rw [List.map_congr_left hstep]
    rw [ih hnd (l.filter (fun a => !(key a == o))) ?hmem]
    case hmem =>
      intro a ha
      rw [List.mem_filter] at ha
      have hin : key a ∈ o :: os := hl a ha.1
      have hne : key a ≠ o := by
        have := ha.2
        simpa [beq_eq_false_iff_ne] using this
      rcases List.mem_cons.mp hin with hc | hc
      · exact absurd hc hne
      · exact hc
    exact sum_map_filter_add (fun a => key a == o) f l

/-- C7: aggregate totals default to zero rather than erroring when the filter
matches nothing: a readable detail table with no row matching the owner yields
the zero-valued counter, a readable device table with no entry for the index
yields the zero-valued counter, and in both cases an error is returned exactly
when the underlying store itself is unreadable. -/
theorem c7_zero_not_error :
    (∀ (uid : Int) (rows : List (StatsKey × StatsValue)),
        (∀ kv ∈ rows, ownerMatches uid kv.1 = false) →
          bpfGetUidStatsInternal uid (some rows) = Except.ok zeroStats) ∧
      (∀ (uid : Int) (table : Option (List (StatsKey × StatsValue))),
        (bpfGetUidStatsInternal uid table = Except.error () ↔ table = none)) ∧
      (∀ (ifindex : Nat) (rows : List (Nat × StatsValue)),
        rows.lookup ifindex = none →
          bpfGetIfIndexStatsInternal ifindex (some rows) = Except.ok zeroStats) ∧
      (∀ (ifindex : Nat) (table : Option (List (Nat × StatsValue))),
        (bpfGetIfIndexStatsInternal ifindex table = Except.error () ↔ table = none)) := by
  refine ⟨?_, ?_, ?_, ?_⟩
  · intro uid rows h
    have hfil : rows.filter (fun kv => ownerMatches uid kv.1) = [] :=
      List.filter_eq_nil_iff.mpr (fun kv hkv => by rw [h kv hkv]; simp)
    simp only [bpfGetUidStatsInternal, hfil, List.map_nil, List.sum_nil]
    rfl
  · intro uid table
    cases table with
    | none => simp [bpfGetUidStatsInternal]
    | some rows => simp [bpfGetUidStatsInternal]
  · intro ifindex rows h
    simp [bpfGetIfIndexStatsInternal, h]
  · intro ifindex table
    cases table with
    | none => simp [bpfGetIfIndexStatsInternal]
    | some rows =>
      simp only [bpfGetIfIndexStatsInternal]
      cases h : rows.lookup ifindex <;> simp

/-- Closed-form witness for `c7_zero_not_error`: an owner with no matching
detail row and an interface index with no device-table entry both yield the
zero-valued counter, not an error. -/
theorem c7_witness :
    bpfGetUidStatsInternal 42 (some [(⟨7, 0, 0, 1⟩, ⟨5, 1, 5, 1⟩)]) =
        Except.ok zeroStats ∧
      bpfGetIfIndexStatsInternal 9 (some [(2, ⟨5, 1, 5, 1⟩)]) = Except.ok zeroStats := by
  have h := c7_zero_not_error
  exact ⟨h.1 42 [(⟨7, 0, 0, 1⟩, ⟨5, 1, 5, 1⟩)] (by decide),
    h.2.2.1 9 [(2, ⟨5, 1, 5, 1⟩)] (by decide)⟩

/-- C8: with a readable detail table, `totalForOwner(UID_ALL)` equals, field by
field, the sum of `totalForOwner(u)` over every distinct owner `u` occurring in
the table. -/
theorem c8_uid_all_sum (rows : List (StatsKey × StatsValue)) :
    bpfGetUidStatsInternal UID_ALL (some rows) =
      Except.ok ((((rows.map (fun kv => (kv.1.uid : Int))).dedup).map
        (fun u => statsOrZero (bpfGetUidStatsInternal u (some rows)))).sum) := by
  have hall : rows.filter (fun kv => ownerMatches UID_ALL kv.1) = rows :=
    List.filter_eq_self.mpr (fun kv _ => by simp [ownerMatches])
  have hswap : ∀ u ∈ (rows.map (fun kv => (kv.1.uid : Int))).dedup,
      statsOrZero (bpfGetUidStatsInternal u (some rows)) =
        ((rows.filter (fun kv => (kv.1.uid : Int) == u)).map (fun kv => kv.2)).sum := by
    intro u hu
    obtain ⟨kv0, hkv0, hkey⟩ := List.mem_map.mp (List.mem_dedup.mp hu)
    have hneg : (u == UID_ALL) = false := by
      rw [beq_eq_false_iff_ne, ← hkey]
      intro hc
      simp only [UID_ALL] at hc
      omega
    have hfil : rows.filter (fun kv => ownerMatches u kv.1) =
        rows.filter (fun kv => (kv.1.uid : Int) == u) :=
      List.filter_congr (fun kv _ => by simp [ownerMatches, hneg])
    simp only [bpfGetUidStatsInternal, statsOrZero, hfil]
  have hpart := sum_map_partition (fun kv : StatsKey × StatsValue => (kv.1.uid : Int))
    (fun kv => kv.2) ((rows.map (fun kv => (kv.1.uid : Int))).dedup)
    (List.nodup_dedup _) rows
    (fun kv hkv => List.mem_dedup.mpr (List.mem_map_of_mem _ hkv))
  rw [List.map_congr_left hswap]
  simp only [bpfGetUidStatsInternal, hall]
  exact congrArg Except.ok hpart.symm

/-- Closed-form witness for `c10_two_state_invariant` at a concrete input:
accumulator 1000 plus an 800-byte row stays in the accumulating range. -/
theorem c10_witness :
    (maybeLogUnknownIface (2 : Int) (fun _ : Nat => some ⟨500, 1, 300, 1⟩) 0 1000).1 = -1 ∨
      (0 ≤ (maybeLogUnknownIface (2 : Int) (fun _ : Nat => some ⟨500, 1, 300, 1⟩) 0 1000).1 ∧
        (maybeLogUnknownIface (2 : Int) (fun _ : Nat => some ⟨500, 1, 300, 1⟩) 0 1000).1 <
          MAX_UNKNOWN_IFACE_BYTES) :=
  c10_two_state_invariant 2 (fun _ : Nat => some ⟨500, 1, 300, 1⟩) 0 1000
    (fun v hv => by cases hv; decide)
    (Or.inr (by decide))
